import Mathlib

/-!
Verification development for a small command interpreter
(pipeline parser, execution engine, and shell builtins).

The definitions below are a shallow embedding of the C sources:
`command.c` (data structures, argument builder, execution engine),
`parser.c` (the token-stream parser `parseTokens`), and
`shell_builtins.c` (the history store and the `history` builtin).
File descriptors are natural numbers; the OS is modelled by an
allocation state (`OSState`) handing out fresh descriptors for pipes
and opened files, plus an environment (`Env`) for glob expansion and
file existence.  Allocation failures (`malloc`, `pipe`) are modelled
as always succeeding, as the claims under study concern the
non-failing control flow.
-/

namespace Shell

/-- Modelled from the spec: standard-stream descriptor constants of the
missing `command.h` header (POSIX values; the parser compares a stage's
descriptors against these interpreter defaults). -/
def STDIN_FD : Nat := 0

/-- Modelled from the spec: default output descriptor (see `STDIN_FD`). -/
def STDOUT_FD : Nat := 1

/-- Modelled from the spec: default error descriptor (see `STDIN_FD`). -/
def STDERR_FD : Nat := 2

/-- Modelled from the spec: the lexical classifier of the missing
`parser.h` header — *is-pipe*. -/
def IS_PIPE (t : String) : Bool := t == "|"

/-- Modelled from the spec: *is-output-redirect* sub-check for append. -/
def IS_APPEND (t : String) : Bool := t == ">>"

/-- Modelled from the spec: *is-output-redirect* (truncate or append). -/
def IS_FILE_OUT_REDIR (t : String) : Bool := t == ">" || t == ">>"

/-- Modelled from the spec: *is-input-redirect*. -/
def IS_FILE_IN_REDIR (t : String) : Bool := t == "<"

/-- Modelled from the spec: *is-stderr-redirect*. -/
def IS_STDERR_REDIR (t : String) : Bool := t == "2>"

/-- Modelled from the spec: *is-background*. -/
def IS_BACKGROUND (t : String) : Bool := t == "&"

/-- Modelled from the spec: *is-chaining-operator*
(sequencing, background, logical). -/
def IS_CHAINING_OPERATOR (t : String) : Bool :=
  t == ";" || t == "&" || t == "&&" || t == "||"

/-- Modelled from the spec: *is-ignorable* — a semantically blank token
(the whitespace tokenizer emits empty tokens between repeated
delimiters). -/
def IGNORE (t : String) : Bool := t == ""

/-- Modelled from the spec: `removeQuotes` of the missing `utils.c` —
a literal content-preserving strip of quote characters. -/
def removeQuotes (t : String) : String :=
  String.mk (t.toList.filter (fun c => c ≠ '"' ∧ c ≠ '\''))

/-- The runner bound to a stage by `getExecutionFunction`
(a function pointer in the C sources; a closed set of handlers here). -/
inductive Runner where
  | cd
  | pwd
  | exitShell
  | history
  | prompt
  | external
deriving Repr, DecidableEq

/-- Model of `getExecutionFunction` of `shell_builtins.c`: the static
name-to-handler registry; unmatched names bind to the
external-process runner. -/
def getExecutionFunction (commandName : String) : Runner :=
  if commandName == "cd" then .cd
  else if commandName == "pwd" then .pwd
  else if commandName == "exit" then .exitShell
  else if commandName == "history" then .history
  else if commandName == "prompt" then .prompt
  else .external

/-- Model of `SimpleCommand` of `command.h`/`command.c`: one stage of a pipeline.
`args` models the heap array cell-for-cell (`none` is the NULL
terminator cell); `execute` is the bound runner (`none` = NULL). -/
structure SimpleCommand where
  commandName : Option String
  args : List (Option String)
  argc : Nat
  inputFD : Nat
  outputFD : Nat
  stderrFD : Nat
  noWait : Bool
  execute : Option Runner
  pid : Int
deriving Repr, DecidableEq

/-- Model of `initSimpleCommand` of `command.c`. -/
def initSimpleCommand : SimpleCommand :=
  { commandName := none
    args := []
    argc := 0
    inputFD := STDIN_FD
    outputFD := STDOUT_FD
    stderrFD := STDERR_FD
    noWait := false
    execute := none
    pid := -1 }

/-- Model of `pushArgs` of `command.c` (success path; `realloc` failure is
modelled away).  The array is reallocated to `argc + 2` cells, the new
argument is stored at index `argc`, the cell after it becomes the NULL
terminator, and the first pushed argument is also recorded as the
stage's program name. -/
def pushArgs (arg : String) (sc : SimpleCommand) : SimpleCommand :=
  { sc with
    args := sc.args.take sc.argc ++ [some arg, none]
    argc := sc.argc + 1
    commandName := if sc.argc = 0 then some arg else sc.commandName }

/-- Model of `Command` of `command.h`: one pipeline of a chain. -/
structure Command where
  simpleCommands : List SimpleCommand
  background : Bool
  chainingOperator : Option String
deriving Repr, DecidableEq

/-- Model of `CommandChain` of `command.h`: the linked list of pipelines,
head-to-tail. -/
structure CommandChain where
  commands : List Command
deriving Repr, DecidableEq

/-- The OS descriptor-allocation state: fresh descriptors are handed
out in increasing order starting from 3 (0,1,2 are the interpreter's
standard streams); `pipes` records every pipe created by `pipe(2)` as
a (read end, write end) pair. -/
structure OSState where
  nextFd : Nat
  pipes : List (Nat × Nat)
deriving Repr, DecidableEq

/-- The OS state at the start of a parse. -/
def initialOS : OSState := ⟨3, []⟩

/-- Model of `pipe(2)`: allocates two fresh descriptors,
`(read end, write end)`. -/
def allocPipe (st : OSState) : (Nat × Nat) × OSState :=
  ((st.nextFd, st.nextFd + 1),
   ⟨st.nextFd + 2, st.pipes ++ [(st.nextFd, st.nextFd + 1)]⟩)

/-- Model of `open(2)` success: allocates one fresh descriptor. -/
def allocFd (st : OSState) : Nat × OSState :=
  (st.nextFd, ⟨st.nextFd + 1, st.pipes⟩)

/-- The external environment of a parse: `glob` is the filesystem
matcher (results of a wildcard pattern, in match order; empty when
nothing matches), `fileExists` decides whether `open(.., O_RDONLY)`
succeeds. -/
structure Env where
  glob : String → List String
  fileExists : String → Bool

/-- Model of `glob` with `GLOB_NOCHECK`: when nothing matches, the literal
pattern is passed through unchanged. -/
def globExpand (env : Env) (t : String) : List String :=
  let r := env.glob t
  if r = [] then [t] else r

/-- Binding a stage's runner when it is committed to a pipeline
(`simpleCommand->execute = getExecutionFunction(...)` in `parser.c`). -/
def commitStage (sc : SimpleCommand) : SimpleCommand :=
  { sc with execute := some (getExecutionFunction (sc.commandName.getD "")) }

/-- Closing out a pipeline at a terminator (`parser.c`, end of the
outer loop body): the in-progress stage is committed if it has a
program name (an empty trailing stage is discarded), the terminator
token is duplicated into `chainingOperator` (`none` models the NULL
end-of-input sentinel, for which `COPY` yields NULL), and the
background flag is set when the terminator is the background marker. -/
def closePipeline (stages : List SimpleCommand) (sc : SimpleCommand)
    (term : Option String) : Command :=
  { simpleCommands :=
      if sc.commandName.isSome then stages ++ [commitStage sc] else stages
    background := match term with
      | some t => IS_BACKGROUND t
      | none => false
    chainingOperator := term }

/-- Processing of one non-operator word by the parser: a history-bang
word (first word of the stage, length ≥ 2, starting with `!`) is
rewritten into the two synthetic arguments `history` and the token's
remainder; any other word is quote-stripped, glob-expanded, and every
expansion result is pushed in order. -/
def stepWord (env : Env) (sc : SimpleCommand) (t : String) : SimpleCommand :=
  if sc.commandName = none ∧ t.front = '!' ∧ 1 < t.length then
    pushArgs (t.drop 1) (pushArgs "history" sc)
  else
    (globExpand env (removeQuotes t)).foldl (fun s w => pushArgs w s) sc

/-- Parser mode: `seek k` models the `do/while` loop of `parser.c`
that skips ignorable tokens after a redirection operator of kind `k`
until the filename token is found. -/
inductive RedirKind where
  | out (append : Bool)
  | inp
  | err
deriving Repr, DecidableEq

/-- See `RedirKind`. -/
inductive PMode where
  | normal
  | seek (k : RedirKind)
deriving Repr, DecidableEq

/-- The main loop of `parseTokens` (`parser.c`), one token at a time.
`stages` is the pipeline under construction, `sc` the stage under
construction, `cmds` the chain built so far.  `none` models every
parse-error path (the C code frees all partial structures and returns
NULL).  In `seek` mode, running out of tokens models
`open(NULL, ...)` failing; an existing-target input redirection, and
any output/stderr redirection, opens a fresh descriptor. -/
def parseAux (env : Env) :
    List String → PMode → OSState → List SimpleCommand → SimpleCommand →
    List Command → Option (List Command × OSState)
  | [], .seek _, _, _, _, _ => none
  | t :: rest, .seek k, st, stages, sc, cmds =>
    if IGNORE t then parseAux env rest (.seek k) st stages sc cmds
    else
      match k with
      | .out _ =>
        let (fd, st') := allocFd st
        parseAux env rest .normal st' stages { sc with outputFD := fd } cmds
      | .inp =>
        if env.fileExists t then
          let (fd, st') := allocFd st
          parseAux env rest .normal st' stages { sc with inputFD := fd } cmds
        else none
      | .err =>
        let (fd, st') := allocFd st
        parseAux env rest .normal st' stages { sc with stderrFD := fd } cmds
  | [], .normal, st, stages, sc, cmds =>
    some (cmds ++ [closePipeline stages sc none], st)
  | t :: rest, .normal, st, stages, sc, cmds =>
    if IS_CHAINING_OPERATOR t then
      let cmds' := cmds ++ [closePipeline stages sc (some t)]
      match rest with
      | [] => some (cmds', st)
      | _ :: _ => parseAux env rest .normal st [] initSimpleCommand cmds'
    else if IS_PIPE t then
      if sc.commandName = none then none
      else if sc.outputFD ≠ STDOUT_FD then none
      else
        let (p, st') := allocPipe st
        parseAux env rest .normal st'
          (stages ++ [commitStage { sc with outputFD := p.2 }])
          { initSimpleCommand with inputFD := p.1 } cmds
    else if IS_FILE_OUT_REDIR t then
      if sc.commandName = none then none
      else if sc.outputFD ≠ STDOUT_FD then none
      else parseAux env rest (.seek (.out (IS_APPEND t))) st stages sc cmds
    else if IS_FILE_IN_REDIR t then
      if sc.inputFD ≠ STDIN_FD then none
      else parseAux env rest (.seek .inp) st stages sc cmds
    else if IS_STDERR_REDIR t then
      if sc.stderrFD ≠ STDERR_FD then none
      else parseAux env rest (.seek .err) st stages sc cmds
    else if IGNORE t then
      parseAux env rest .normal st stages sc cmds
    else
      parseAux env rest .normal st stages (stepWord env sc t) cmds

/-- Model of `parseTokens` of `parser.c`: parses the NULL-terminated token
array into a command chain (the Lean list end models the NULL
sentinel).  An empty token sequence never enters the outer loop and
yields an empty chain. -/
def parseTokens (env : Env) (tokens : List String) :
    Option (CommandChain × OSState) :=
  match tokens with
  | [] => some (⟨[]⟩, initialOS)
  | _ :: _ =>
    match parseAux env tokens .normal initialOS [] initSimpleCommand [] with
    | none => none
    | some (cmds, st) => some (⟨cmds⟩, st)

/-! ## Execution engine (`command.c`) -/

/-- The observable outcome of running a pipeline or chain: the exit
status, the stages actually handed to their runner (with the
`noWait` mutation applied), in order, and the descriptors closed by
the parent, in order. -/
structure ExecResult where
  status : Int
  executed : List SimpleCommand
  closed : List Nat
deriving Repr, DecidableEq

/-- The per-stage `noWait` mutation of `executeCommand`: when the
pipeline is backgrounded, the stage is marked deferred-wait just
before it runs. -/
def markStage (bg : Bool) (sc : SimpleCommand) : SimpleCommand :=
  if bg then { sc with noWait := true } else sc

/-- The descriptors `executeCommand` closes after a successful stage:
the input descriptor when it is not stdin and the output descriptor
when it is not stdout (the error descriptor is never touched). -/
def closesOf (sc : SimpleCommand) : List Nat :=
  (if sc.inputFD ≠ STDIN_FD then [sc.inputFD] else []) ++
  (if sc.outputFD ≠ STDOUT_FD then [sc.outputFD] else [])

/-- The stage loop of `executeCommand` (`command.c`): each stage is
marked `noWait` when the pipeline is backgrounded, a stage with no
program name aborts with -1 without running, a non-zero status
returns immediately (closing nothing), and after a successful stage
the parent closes its non-standard input/output descriptors.
`exec` abstracts the bound runner's observable exit status. -/
def execStages (exec : SimpleCommand → Int) (bg : Bool) :
    List SimpleCommand → ExecResult
  | [] => ⟨0, [], []⟩
  | sc :: rest =>
    let sc1 := markStage bg sc
    if sc1.commandName = none then ⟨-1, [], []⟩
    else
      let status := exec sc1
      if status ≠ 0 then ⟨status, [sc1], []⟩
      else
        let r := execStages exec bg rest
        ⟨r.status, sc1 :: r.executed, closesOf sc1 ++ r.closed⟩

/-- Model of `executeCommand` of `command.c`: an empty pipeline is rejected
with -1; otherwise the stage loop runs. -/
def executeCommand (exec : SimpleCommand → Int) (cmd : Command) : ExecResult :=
  if cmd.simpleCommands = [] then ⟨-1, [], []⟩
  else execStages exec cmd.background cmd.simpleCommands

/-- One iteration of the `executeCommandChain` loop: the pipeline is
executed unconditionally and `lastStatus` is overwritten with its
status. -/
def chainStep (exec : SimpleCommand → Int) (acc : ExecResult)
    (cmd : Command) : ExecResult :=
  let r := executeCommand exec cmd
  ⟨r.status, acc.executed ++ r.executed, acc.closed ++ r.closed⟩

/-- Model of `executeCommandChain` of `command.c`: every pipeline of the chain
is executed in order, with no conditional short-circuiting; the
result is the status of the last executed pipeline (0 for an empty
chain, matching the `lastStatus` initialisation). -/
def executeCommandChain (exec : SimpleCommand → Int)
    (chain : CommandChain) : ExecResult :=
  chain.commands.foldl (chainStep exec) ⟨0, [], []⟩

/-! ## History store and the `history` builtin (`shell_builtins.c`) -/

/-- Model of `atoi` on a digits-only string. -/
def atoiDigits (s : String) : Nat :=
  s.data.foldl (fun n c => n * 10 + (c.toNat - 48)) 0

/-- The `strspn(s, "0123456789") == strlen(s)` numeric-argument test
of `shell_builtins.c` (vacuously true for the empty string, as in C). -/
def isNumericString (s : String) : Bool := s.data.all (·.isDigit)

/-- The traversal loop of `get_command`: walks the list with a counter
starting at 1, stopping at the node whose position equals `index`;
`none` means the walk ran off the end of the list (`curr == NULL`). -/
def get_command_walk (index : Nat) : List String → Nat → Option String
  | [], _ => none
  | c :: rest, ctr =>
    if ctr = index then some c else get_command_walk index rest (ctr + 1)

/-- Model of `get_command` of `shell_builtins.c`.  The outer `none` models the
undefined behaviour of dereferencing `curr->command` when the
traversal exhausted the list with `curr == NULL`; `some none` models
the guarded NULL return (`index > list->size || !list->head`);
`some (some s)` is a successful 1-based lookup. -/
def get_command (l : List String) (index : Nat) : Option (Option String) :=
  if l.length < index ∨ l = [] then some none
  else
    match get_command_walk index l 1 with
    | none => none
    | some s => some (some s)

/-- Model of `find_last_command_with_prefix` of `shell_builtins.c`: the walk
keeps overwriting `lastCommand` with every entry whose text starts
with the given string, so the final overwrite wins. -/
def findLastCommandStartingWith (l : List String) (pre : String) :
    Option String :=
  l.foldl (fun acc c => if pre.data.isPrefixOf c.data then some c else acc) none

/-- Splitting a character list at every occurrence of a delimiter
(consecutive delimiters yield empty groups). -/
def splitChars (delim : Char) : List Char → List (List Char)
  | [] => [[]]
  | c :: rest =>
    match splitChars delim rest with
    | [] => [[]]
    | g :: gs => if c = delim then [] :: g :: gs else (c :: g) :: gs

/-- Modelled from the spec: `tokenizeString` of the missing `utils.c`
— a simple single-character-delimiter splitter whose output is
terminator-delimited (consecutive delimiters yield empty tokens). -/
def tokenizeString (line : String) (delim : Char) : List String :=
  (splitChars delim line.data).map (fun cs => String.mk cs)

/-- The observable outcome of the `history` builtin: its return
status, the (1-based index, entry) lines it printed, the history
store after the call, and — when a reference was resolved and the
fetched line re-entered the interpreter — the exit status of the
re-executed chain (which the C code computes and then discards with
`(void)status`). -/
structure HistResult where
  status : Int
  output : List (Nat × String)
  histAfter : List String
  reexecStatus : Option Int
deriving Repr, DecidableEq

/-- The `history` builtin of `shell_builtins.c`.  `args` is the
stage's argument vector (first element the builtin name); `exec`
abstracts the runners of the re-executed chain.  The descriptor
save/override/restore (`setUpFD`/`resetFD`) is modelled as succeeding.
The outer `none` models the crash inherited from `get_command`
(see `get_command`).  On a successful lookup the fetched line is
re-tokenized, re-parsed and re-executed, and its status is discarded:
the builtin returns 0. -/
def historyBuiltin (env : Env) (exec : SimpleCommand → Int)
    (hist : List String) (args : List String) : Option HistResult :=
  if args.length > 2 then some ⟨-1, [], hist, none⟩
  else if args.length ≤ 1 then
    some ⟨0, hist.enum.map (fun p => (p.1 + 1, p.2)), hist, none⟩
  else
    let a := (args.get? 1).getD ""
    let reenter : String → Option HistResult := fun line =>
      let s : Int :=
        match parseTokens env (tokenizeString line ' ') with
        | none => -1
        | some (chain, _) => (executeCommandChain exec chain).status
      some ⟨0, [], hist, some s⟩
    if isNumericString a then
      match get_command hist (atoiDigits a) with
      | none => none
      | some none => some ⟨-1, [], hist, none⟩
      | some (some line) => reenter line
    else
      match findLastCommandStartingWith hist a with
      | none => some ⟨-1, [], hist, none⟩
      | some line => reenter line

/-- An environment with no glob matches (every pattern passes through
literally) and no existing files. -/
def pureEnv : Env := ⟨fun _ => [], fun _ => false⟩

/-- An environment with no glob matches in which every file exists. -/
def allFilesEnv : Env := ⟨fun _ => [], fun _ => true⟩

/-! ## Notions used to state the claims -/

/-- A plain word token: not an operator, not ignorable.  The parser's
branch priority sends exactly these tokens to the history-bang or
plain-word branches. -/
def isWordToken (t : String) : Bool :=
  !(IS_CHAINING_OPERATOR t || IS_PIPE t || IS_FILE_OUT_REDIR t ||
    IS_FILE_IN_REDIR t || IS_STDERR_REDIR t || IGNORE t)

/-- Token sequence of a single pipeline: the word groups of its
stages joined by the pipe operator. -/
def joinPipeGroups : List (List String) → List String
  | [] => []
  | [g] => g
  | g :: gs => g ++ "|" :: joinPipeGroups gs

/-- A valid single-pipeline token sequence, given by its stage word
groups: at least one group, every group non-empty and made of plain
word tokens. -/
def ValidSinglePipeline (gs : List (List String)) : Prop :=
  gs ≠ [] ∧ ∀ g ∈ gs, g ≠ [] ∧ ∀ t ∈ g, isWordToken t = true

/-- Adjacent-stage wiring: stage `a`'s output descriptor is the write
end of an allocated OS pipe whose read end is stage `b`'s input
descriptor. -/
def wiredStep (pipes : List (Nat × Nat)) (a b : SimpleCommand) : Prop :=
  ∃ p ∈ pipes, a.outputFD = p.2 ∧ b.inputFD = p.1

/-- Invariant tying a stage's program name to its argument count:
the name is present exactly when at least one argument was pushed
(`pushArgs` records the first pushed argument as the name). -/
def NameInv (sc : SimpleCommand) : Prop :=
  sc.commandName.isSome ↔ sc.argc ≠ 0

/-- A minimal committed external stage with default descriptors,
used by concrete execution scenarios. -/
def mkStage (n : String) : SimpleCommand :=
  ⟨some n, [some n, none], 1, STDIN_FD, STDOUT_FD, STDERR_FD, false,
   some Runner.external, -1⟩

/-- A runner oracle under which exactly the stage named `f` fails,
with status 7. -/
def execSample : SimpleCommand → Int :=
  fun sc => if sc.commandName = some "f" then 7 else 0

/-- A two-pipeline chain: `a ; f | b` — the second pipeline's first
stage fails under `execSample`. -/
def chainSample : CommandChain :=
  ⟨[⟨[mkStage "a"], false, some ";"⟩,
    ⟨[mkStage "f", mkStage "b"], false, none⟩]⟩

/-! ## Helper lemmas -/

theorem pushArgs_argc (w : String) (sc : SimpleCommand) :
    (pushArgs w sc).argc = sc.argc + 1 := rfl

theorem pushArgs_fds (w : String) (sc : SimpleCommand) :
    (pushArgs w sc).inputFD = sc.inputFD ∧
    (pushArgs w sc).outputFD = sc.outputFD ∧
    (pushArgs w sc).stderrFD = sc.stderrFD := ⟨rfl, rfl, rfl⟩

theorem commitStage_fields (sc : SimpleCommand) :
    (commitStage sc).commandName = sc.commandName ∧
    (commitStage sc).inputFD = sc.inputFD ∧
    (commitStage sc).outputFD = sc.outputFD ∧
    (commitStage sc).noWait = sc.noWait := ⟨rfl, rfl, rfl, rfl⟩

theorem markStage_commandName (bg : Bool) (sc : SimpleCommand) :
    (markStage bg sc).commandName = sc.commandName := by
  unfold markStage; split <;> rfl

theorem globExpand_ne_nil (env : Env) (t : String) :
    globExpand env t ≠ [] := by
  unfold globExpand
  by_cases h : env.glob t = [] <;> simp [h]

theorem pushArgs_NameInv (w : String) (sc : SimpleCommand)
    (h : NameInv sc) : NameInv (pushArgs w sc) := by
  unfold NameInv pushArgs at *
  by_cases h0 : sc.argc = 0
  · simp [h0]
  · simp [h0, h]

theorem foldl_pushArgs_NameInv (ws : List String) :
    ∀ sc : SimpleCommand, NameInv sc →
      NameInv (ws.foldl (fun s w => pushArgs w s) sc) := by
  induction ws with
  | nil => intro sc h; exact h
  | cons w ws ih => intro sc h; exact ih _ (pushArgs_NameInv w sc h)

theorem foldl_pushArgs_argc (ws : List String) :
    ∀ sc : SimpleCommand,
      (ws.foldl (fun s w => pushArgs w s) sc).argc = sc.argc + ws.length := by
  induction ws with
  | nil => intro sc; rfl
  | cons w ws ih =>
    intro sc
    rw [List.foldl_cons, ih, pushArgs_argc, List.length_cons]
    omega

theorem foldl_pushArgs_fds (ws : List String) :
    ∀ sc : SimpleCommand,
      (ws.foldl (fun s w => pushArgs w s) sc).inputFD = sc.inputFD ∧
      (ws.foldl (fun s w => pushArgs w s) sc).outputFD = sc.outputFD ∧
      (ws.foldl (fun s w => pushArgs w s) sc).stderrFD = sc.stderrFD := by
  induction ws with
  | nil => intro sc; exact ⟨rfl, rfl, rfl⟩
  | cons w ws ih =>
    intro sc
    rw [List.foldl_cons]
    exact ⟨(ih _).1, (ih _).2.1, (ih _).2.2⟩

theorem stepWord_fds (env : Env) (sc : SimpleCommand) (t : String) :
    (stepWord env sc t).inputFD = sc.inputFD ∧
    (stepWord env sc t).outputFD = sc.outputFD ∧
    (stepWord env sc t).stderrFD = sc.stderrFD := by
  unfold stepWord
  split
  · exact ⟨rfl, rfl, rfl⟩
  · exact foldl_pushArgs_fds _ sc

theorem stepWord_NameInv (env : Env) (sc : SimpleCommand) (t : String)
    (h : NameInv sc) : NameInv (stepWord env sc t) := by
  unfold stepWord
  split
  · exact pushArgs_NameInv _ _ (pushArgs_NameInv _ _ h)
  · exact foldl_pushArgs_NameInv _ sc h

theorem stepWord_argc_pos (env : Env) (sc : SimpleCommand) (t : String) :
    sc.argc < (stepWord env sc t).argc := by
  unfold stepWord
  split
  · rw [pushArgs_argc, pushArgs_argc]; omega
  · rw [foldl_pushArgs_argc]
    have := globExpand_ne_nil env (removeQuotes t)
    have : (globExpand env (removeQuotes t)).length ≠ 0 := by
      simpa [List.length_eq_zero] using this
    omega

theorem foldl_stepWord_fds (env : Env) (g : List String) :
    ∀ sc : SimpleCommand,
      (g.foldl (stepWord env) sc).inputFD = sc.inputFD ∧
      (g.foldl (stepWord env) sc).outputFD = sc.outputFD ∧
      (g.foldl (stepWord env) sc).stderrFD = sc.stderrFD := by
  induction g with
  | nil => intro sc; exact ⟨rfl, rfl, rfl⟩
  | cons t g ih =>
    intro sc
    rw [List.foldl_cons]
    obtain ⟨h1, h2, h3⟩ := ih (stepWord env sc t)
    obtain ⟨g1, g2, g3⟩ := stepWord_fds env sc t
    exact ⟨h1.trans g1, h2.trans g2, h3.trans g3⟩

theorem foldl_stepWord_NameInv (env : Env) (g : List String) :
    ∀ sc : SimpleCommand, NameInv sc →
      NameInv (g.foldl (stepWord env) sc) := by
  induction g with
  | nil => intro sc h; exact h
  | cons t g ih => intro sc h; exact ih _ (stepWord_NameInv env sc t h)

theorem foldl_stepWord_argc_mono (env : Env) (g : List String) :
    ∀ sc : SimpleCommand, sc.argc ≤ (g.foldl (stepWord env) sc).argc := by
  induction g with
  | nil => intro sc; exact Nat.le_refl _
  | cons t g ih =>
    intro sc
    exact Nat.le_trans (Nat.le_of_lt (stepWord_argc_pos env sc t))
      (ih (stepWord env sc t))

theorem group_named (env : Env) (g : List String) (hg : g ≠ [])
    (sc : SimpleCommand) (hNI : NameInv sc) :
    (g.foldl (stepWord env) sc).commandName.isSome := by
  have hinv := foldl_stepWord_NameInv env g sc hNI
  cases g with
  | nil => exact absurd rfl hg
  | cons t g2 =>
    rw [NameInv] at hinv
    apply hinv.mpr
    rw [List.foldl_cons]
    have h1 := stepWord_argc_pos env sc t
    have h2 := foldl_stepWord_argc_mono env g2 (stepWord env sc t)
    omega

theorem initSimpleCommand_NameInv : NameInv initSimpleCommand := by
  rw [NameInv]; simp [initSimpleCommand]

/-! ## C9 — argument-builder round trip -/

/-- C9: pushing arguments a, b, c in order onto a fresh stage yields
argument count 3, program name a, and the NULL-terminated array
[a, b, c, NULL]; moreover, after every push the argument array ends
with the NULL terminator cell. -/
theorem c9_pushArgs_roundtrip (a b c : String) :
    (pushArgs c (pushArgs b (pushArgs a initSimpleCommand))).argc = 3
    ∧ (pushArgs c (pushArgs b (pushArgs a initSimpleCommand))).commandName
        = some a
    ∧ (pushArgs c (pushArgs b (pushArgs a initSimpleCommand))).args
        = [some a, some b, some c, none]
    ∧ ∀ (arg : String) (sc : SimpleCommand),
        ((pushArgs arg sc).args).getLast? = some none := by
  refine ⟨rfl, rfl, rfl, ?_⟩
  intro arg sc
  show (sc.args.take sc.argc ++ [some arg, none]).getLast? = some none
  rw [show sc.args.take sc.argc ++ [some arg, none]
        = (sc.args.take sc.argc ++ [some arg]) ++ [none] by
      simp]
  exact List.getLast?_concat _

/-! ## C3 — descriptor closing by the parent -/

theorem execStages_closed_eq (exec : SimpleCommand → Int) (bg : Bool) :
    ∀ stages : List SimpleCommand,
      (execStages exec bg stages).closed
        = (((execStages exec bg stages).executed.filter
              (fun sc => exec sc == 0)).map closesOf).flatten := by
  intro stages
  induction stages with
  | nil => simp [execStages]
  | cons sc rest ih =>
    by_cases h1 : (markStage bg sc).commandName = none
    · simp [execStages, h1]
    · by_cases h2 : exec (markStage bg sc) = 0
      · simp [execStages, h1, h2, ih]
      · simp [execStages, h1, h2]

/-- C3 (amended): the parent closes descriptors only after a stage
that completed with status 0, and then only the stage's non-stdin
input descriptor and non-stdout output descriptor (`closesOf`); a
failing stage's descriptors, and every stage's error descriptor, are
never closed. -/
theorem c3_closed_only_on_success (exec : SimpleCommand → Int)
    (cmd : Command) :
    (executeCommand exec cmd).closed
      = (((executeCommand exec cmd).executed.filter
            (fun sc => exec sc == 0)).map closesOf).flatten := by
  unfold executeCommand
  split
  · rfl
  · exact execStages_closed_eq exec cmd.background cmd.simpleCommands

/-- C3 counterexample: a single failing stage holding the
non-standard descriptors 5 (input), 6 (output), 7 (error) has none of
them closed by the parent, and even on success the error descriptor 7
is not closed — refuting that every held non-standard descriptor is
closed whether the stage succeeded or failed. -/
theorem c3_counterexample :
    (executeCommand (fun _ => 1)
        ⟨[⟨some "a", [some "a", none], 1, 5, 6, 7, false,
           some Runner.external, -1⟩], false, none⟩).closed = []
    ∧ ¬ (7 ∈ (executeCommand (fun _ => 0)
        ⟨[⟨some "a", [some "a", none], 1, 5, 6, 7, false,
           some Runner.external, -1⟩], false, none⟩).closed) := by
  constructor
  · decide
  · decide

/-! ## C5 — history with an out-of-range numeric argument -/

/-- C5: with a one-entry history store, the numeric argument 0 (out
of the 1-based range) makes `get_command`'s traversal run off the end
of the list and dereference a NULL node pointer — modelled as the
crash value `none` — instead of reporting an error as the guarded
NULL return would. -/
theorem c5_history_zero_crash :
    historyBuiltin pureEnv (fun _ => 0) ["pwd"] ["history", "0"] = none
    ∧ get_command ["pwd"] 0 = none
    ∧ get_command ["pwd"] 2 = some none
    ∧ historyBuiltin pureEnv (fun _ => 0) ["pwd"] ["history", "2"]
        = some ⟨-1, [], ["pwd"], none⟩
    ∧ historyBuiltin pureEnv (fun _ => 0) [] ["history"]
        = some ⟨0, [], [], none⟩ := by
  refine ⟨?_, ?_, ?_, ?_, ?_⟩ <;> decide

/-! ## C4 — ignorable-only lines -/

theorem parseAux_all_ignorable (env : Env) :
    ∀ (toks : List String), (∀ t ∈ toks, IGNORE t = true) →
      ∀ st stages sc cmds,
        parseAux env toks .normal st stages sc cmds
          = some (cmds ++ [closePipeline stages sc none], st) := by
  intro toks
  induction toks with
  | nil => intro _ st stages sc cmds; rfl
  | cons t ts ih =>
    intro h st stages sc cmds
    have ht : t = "" := by
      have := h t (List.mem_cons_self t ts)
      simpa [IGNORE] using this
    subst ht
    have h2 : ∀ u ∈ ts, IGNORE u = true := fun u hu =>
      h u (List.mem_cons_of_mem _ hu)
    have e1 : IS_CHAINING_OPERATOR "" = false := by decide
    have e2 : IS_PIPE "" = false := by decide
    have e3 : IS_FILE_OUT_REDIR "" = false := by decide
    have e4 : IS_FILE_IN_REDIR "" = false := by decide
    have e5 : IS_STDERR_REDIR "" = false := by decide
    have e6 : IGNORE "" = true := by decide
    simp only [parseAux, e1, e2, e3, e4, e5, e6, Bool.false_eq_true,
      if_false, if_true]
    exact ih h2 st stages sc cmds

/-- C4 (amended): a line consisting solely of ignorable tokens
followed by the terminator parses, with no error, into a chain
containing exactly one pipeline with zero stages (not into an empty
chain): the outer loop runs once, the unnamed trailing stage is
discarded, and the empty pipeline is still appended to the chain. -/
theorem c4_ignorable_line (env : Env) (tokens : List String)
    (hne : tokens ≠ []) (hig : ∀ t ∈ tokens, IGNORE t = true) :
    parseTokens env tokens = some (⟨[⟨[], false, none⟩]⟩, initialOS) := by
  obtain ⟨t, ts, rfl⟩ := List.exists_cons_of_ne_nil hne
  have := parseAux_all_ignorable env (t :: ts) hig initialOS []
    initSimpleCommand []
  simp only [parseTokens, this, List.nil_append]
  rfl

/-- C4 witness: the two-blank-token line parses to one empty
pipeline. -/
theorem c4_witness :
    parseTokens pureEnv ["", ""] = some (⟨[⟨[], false, none⟩]⟩, initialOS) :=
  c4_ignorable_line pureEnv ["", ""] (by decide) (by decide)

/-- C4 counterexample: the ignorable-only line does NOT yield an
empty chain (no pipelines) as claimed — it yields a chain with one
pipeline that has zero stages, violating the stated invariant. -/
theorem c4_counterexample :
    ¬ (parseTokens pureEnv [""] = some (⟨[]⟩, initialOS))
    ∧ parseTokens pureEnv [""]
        = some (⟨[⟨[], false, none⟩]⟩, initialOS) := by
  exact ⟨by decide, by decide⟩

/-! ## C6 — input redirection -/

/-- C6 (amended): input redirection requires only that the stage's
input descriptor is still the interpreter default (a repeated input
redirection is a parse error); unlike output redirection it does not
require a program name to be present; it opens the target read-only,
and a nonexistent target file aborts the whole parse.  The behaviour
is characterised without any assumption on the stage's program
name. -/
theorem c6_input_redir_behavior (env : Env) (f : String)
    (rest : List String) (st : OSState) (stages : List SimpleCommand)
    (sc : SimpleCommand) (cmds : List Command) (hf : IGNORE f = false) :
    parseAux env ("<" :: f :: rest) .normal st stages sc cmds
      = if sc.inputFD ≠ STDIN_FD then none
        else if env.fileExists f then
          parseAux env rest .normal ⟨st.nextFd + 1, st.pipes⟩ stages
            { sc with inputFD := st.nextFd } cmds
        else none := by
  have e1 : IS_CHAINING_OPERATOR "<" = false := by decide
  have e2 : IS_PIPE "<" = false := by decide
  have e3 : IS_FILE_OUT_REDIR "<" = false := by decide
  have e4 : IS_FILE_IN_REDIR "<" = true := by decide
  simp only [parseAux, e1, e2, e3, e4, Bool.false_eq_true, if_false, if_true]
  by_cases hin : sc.inputFD ≠ STDIN_FD
  · simp [hin]
  · simp only [hin, if_false, if_neg hin]
    simp only [parseAux, hf, Bool.false_eq_true, if_false]
    rfl

/-- C6 witness: the characterisation applied at the head of a line,
with every file existing. -/
theorem c6_witness :
    parseAux allFilesEnv ("<" :: "f" :: []) .normal initialOS []
        initSimpleCommand []
      = if initSimpleCommand.inputFD ≠ STDIN_FD then none
        else if allFilesEnv.fileExists "f" then
          parseAux allFilesEnv [] .normal ⟨initialOS.nextFd + 1,
            initialOS.pipes⟩ [] { initSimpleCommand with
              inputFD := initialOS.nextFd } []
        else none :=
  c6_input_redir_behavior allFilesEnv "f" [] initialOS [] initSimpleCommand
    [] (by decide)

/-- C6 counterexample: a line starting with input redirection before
any program name is accepted by the parser (one stage named `cmd`
with its input overridden to the opened descriptor 3), refuting the
claim that a missing program name makes input redirection a parse
error. -/
theorem c6_counterexample :
    parseTokens allFilesEnv ["<", "f", "cmd"]
      = some (⟨[⟨[⟨some "cmd", [some "cmd", none], 1, 3, STDOUT_FD,
                   STDERR_FD, false, some Runner.external, -1⟩],
                false, none⟩]⟩, ⟨4, []⟩) := by
  decide

/-! ## C7 — background terminator handling -/

theorem execStages_noWait (exec : SimpleCommand → Int) :
    ∀ stages : List SimpleCommand,
      ∀ sc2 ∈ (execStages exec true stages).executed, sc2.noWait = true := by
  intro stages
  induction stages with
  | nil => intro sc2 h; simp [execStages] at h
  | cons sc rest ih =>
    intro sc2 h
    by_cases h1 : (markStage true sc).commandName = none
    · simp [execStages, h1] at h
    · by_cases h2 : exec (markStage true sc) = 0
      · simp [execStages, h1, h2] at h
        rcases h with h | h
        · subst h; simp [markStage]
        · exact ih sc2 h
      · simp [execStages, h1, h2] at h
        subst h; simp [markStage]

/-- C7 (amended): when a pipeline is closed at a terminator token the
terminator is duplicated into the pipeline's chaining-operator record
and the background flag is set exactly when the terminator is the
background marker; the deferred-wait marking of the stages, however,
happens at execution time — `executeCommand` marks every stage it
runs as `noWait` when the pipeline's background flag is set. -/
theorem c7_terminator_and_background (stages : List SimpleCommand)
    (sc : SimpleCommand) (t : String) (exec : SimpleCommand → Int)
    (cmd : Command) (hbg : cmd.background = true) :
    (closePipeline stages sc (some t)).chainingOperator = some t
    ∧ (closePipeline stages sc (some t)).background = IS_BACKGROUND t
    ∧ ∀ sc2 ∈ (executeCommand exec cmd).executed, sc2.noWait = true := by
  refine ⟨rfl, rfl, ?_⟩
  intro sc2 hmem
  by_cases he : cmd.simpleCommands = []
  · simp [executeCommand, he] at hmem
  · rw [executeCommand, if_neg he, hbg] at hmem
    exact execStages_noWait exec _ sc2 hmem

/-- C7 witness: the amended statement at a concrete backgrounded
one-stage pipeline. -/
theorem c7_witness :
    (closePipeline [] initSimpleCommand (some "&")).chainingOperator
        = some "&"
    ∧ (closePipeline [] initSimpleCommand (some "&")).background
        = IS_BACKGROUND "&"
    ∧ ∀ sc2 ∈ (executeCommand (fun _ => 0)
          ⟨[mkStage "sleep"], true, some "&"⟩).executed,
        sc2.noWait = true :=
  c7_terminator_and_background [] initSimpleCommand "&" (fun _ => 0)
    ⟨[mkStage "sleep"], true, some "&"⟩ rfl

/-- C7 counterexample: after parsing `cmd &` the pipeline's
background flag is set and the terminator is stored, but the stage's
`noWait` flag is still false — the deferred-wait marking does not
happen when the pipeline is closed, refuting the claim. -/
theorem c7_counterexample :
    parseTokens pureEnv ["cmd", "&"]
      = some (⟨[⟨[⟨some "cmd", [some "cmd", none], 1, STDIN_FD, STDOUT_FD,
                   STDERR_FD, false, some Runner.external, -1⟩],
                true, some "&"⟩]⟩, initialOS)
    ∧ ¬ (∀ (chain : CommandChain) (st : OSState),
          parseTokens pureEnv ["cmd", "&"] = some (chain, st) →
          ∀ cmd ∈ chain.commands, ∀ sc ∈ cmd.simpleCommands,
            sc.noWait = true) := by
  refine ⟨by decide, ?_⟩
  intro h
  have h2 := h ⟨[⟨[⟨some "cmd", [some "cmd", none], 1, STDIN_FD, STDOUT_FD,
                    STDERR_FD, false, some Runner.external, -1⟩],
                 true, some "&"⟩]⟩ initialOS (by decide)
      ⟨[⟨some "cmd", [some "cmd", none], 1, STDIN_FD, STDOUT_FD,
         STDERR_FD, false, some Runner.external, -1⟩],
       true, some "&"⟩ (by decide)
      ⟨some "cmd", [some "cmd", none], 1, STDIN_FD, STDOUT_FD,
       STDERR_FD, false, some Runner.external, -1⟩ (by decide)
  simp at h2

/-! ## C8 — history-bang rewriting -/

theorem ne_of_front {t : String} (ht : t.front = '!') (s : String)
    (hs : s.front ≠ '!') : t ≠ s := by
  intro h
  subst h
  exact hs ht

theorem front_bang_classify (t : String) (ht : t.front = '!') :
    IS_CHAINING_OPERATOR t = false ∧ IS_PIPE t = false ∧
    IS_FILE_OUT_REDIR t = false ∧ IS_FILE_IN_REDIR t = false ∧
    IS_STDERR_REDIR t = false ∧ IGNORE t = false := by
  have ne : ∀ s : String, s.front ≠ '!' → (t == s) = false := fun s hs =>
    beq_eq_false_iff_ne.mpr (ne_of_front ht s hs)
  refine ⟨?_, ?_, ?_, ?_, ?_, ?_⟩
  · simp [IS_CHAINING_OPERATOR, ne ";" (by decide), ne "&" (by decide),
      ne "&&" (by decide), ne "||" (by decide)]
  · simp [IS_PIPE, ne "|" (by decide)]
  · simp [IS_FILE_OUT_REDIR, ne ">" (by decide), ne ">>" (by decide)]
  · simp [IS_FILE_IN_REDIR, ne "<" (by decide)]
  · simp [IS_STDERR_REDIR, ne "2>" (by decide)]
  · simp [IGNORE, ne "" (by decide)]

/-- C8: any token of length at least 2 starting with the history
marker, appearing as the first word of a stage, is rewritten into
exactly the two arguments `history` and the token's remainder — the
remainder is taken verbatim (no glob expansion, no quote stripping)
and the stage's runner binds to the history builtin. -/
theorem c8_history_bang (env : Env) (t : String) (ht : t.front = '!')
    (hl : 1 < t.length) :
    parseTokens env [t]
      = some (⟨[⟨[⟨some "history",
                   [some "history", some (t.drop 1), none], 2,
                   STDIN_FD, STDOUT_FD, STDERR_FD, false,
                   some Runner.history, -1⟩], false, none⟩]⟩,
              initialOS) := by
  obtain ⟨e1, e2, e3, e4, e5, e6⟩ := front_bang_classify t ht
  have hstep : stepWord env initSimpleCommand t
      = pushArgs (t.drop 1) (pushArgs "history" initSimpleCommand) := by
    unfold stepWord
    exact if_pos ⟨rfl, ht, hl⟩
  show (match parseAux env [t] .normal initialOS [] initSimpleCommand []
          with
        | none => none
        | some (cmds, st) => some ((⟨cmds⟩ : CommandChain), st)) = _
  simp only [parseAux, e1, e2, e3, e4, e5, e6, Bool.false_eq_true,
    if_false, hstep]
  rfl

/-- C8 witness: the token `!5` becomes the invocation
`history 5`. -/
theorem c8_witness :
    parseTokens pureEnv ["!5"]
      = some (⟨[⟨[⟨some "history",
                   [some "history", some (String.drop "!5" 1), none], 2,
                   STDIN_FD, STDOUT_FD, STDERR_FD, false,
                   some Runner.history, -1⟩], false, none⟩]⟩,
              initialOS) :=
  c8_history_bang pureEnv "!5" (by decide) (by decide)

/-! ## C10 — history reentry discards the re-executed status -/

/-- C10: whenever the history builtin resolves a reference and
re-enters the fetched line through the parser and execution engine
(observable as a recorded re-execution status), the builtin's own
return value is 0, whatever the re-executed chain's status was. -/
theorem c10_reentry_discards_status (env : Env)
    (exec : SimpleCommand → Int) (hist : List String) (a : String)
    (r : HistResult)
    (h : historyBuiltin env exec hist ["history", a] = some r)
    (hr : r.reexecStatus.isSome = true) : r.status = 0 := by
  unfold historyBuiltin at h
  norm_num at h
  by_cases hn : isNumericString a = true
  · rw [if_pos hn] at h
    cases hg : get_command hist (atoiDigits a) with
    | none => rw [hg] at h; cases h
    | some o =>
      cases o with
      | none =>
        rw [hg] at h
        injection h with h'
        rw [← h'] at hr
        simp at hr
      | some line =>
        rw [hg] at h
        injection h with h'
        rw [← h']
  · rw [if_neg hn] at h
    cases hg : findLastCommandStartingWith hist a with
    | none =>
      rw [hg] at h
      injection h with h'
      rw [← h'] at hr
      simp at hr
    | some line =>
      rw [hg] at h
      injection h with h'
      rw [← h']

/-- C10 witness: with history entry `x` whose re-execution fails with
status 3, `history 1` still returns 0. -/
theorem c10_witness : HistResult.status ⟨0, [], ["x"], some 3⟩ = 0 :=
  c10_reentry_discards_status pureEnv (fun _ => 3) ["x"] "1"
    ⟨0, [], ["x"], some 3⟩ (by decide) (by decide)

/-! ## C2 — chain and pipeline status propagation -/

theorem foldl_chainStep_executed (exec : SimpleCommand → Int) :
    ∀ (cs : List Command) (acc : ExecResult),
      (List.foldl (chainStep exec) acc cs).executed
        = acc.executed
          ++ (cs.map (fun c => (executeCommand exec c).executed)).flatten := by
  intro cs
  induction cs with
  | nil => intro acc; simp
  | cons c cs ih =>
    intro acc
    rw [List.foldl_cons, ih]
    simp [chainStep, List.append_assoc]

theorem foldl_chainStep_status (exec : SimpleCommand → Int) :
    ∀ (cs : List Command) (h : cs ≠ []) (acc : ExecResult),
      (List.foldl (chainStep exec) acc cs).status
        = (executeCommand exec (cs.getLast h)).status := by
  intro cs
  induction cs with
  | nil => intro h; exact absurd rfl h
  | cons c cs ih =>
    intro h acc
    cases cs with
    | nil => rfl
    | cons c2 cs2 =>
      rw [List.foldl_cons, ih (List.cons_ne_nil c2 cs2)]
      rw [List.getLast_cons (List.cons_ne_nil c2 cs2)]

theorem execStages_first_fail (exec : SimpleCommand → Int) (bg : Bool) :
    ∀ (stages : List SimpleCommand) (j : Nat) (hj : j < stages.length),
      (∀ sc ∈ stages, sc.commandName.isSome) →
      (∀ k (hk : k < j),
        exec (markStage bg (stages.get ⟨k, Nat.lt_trans hk hj⟩)) = 0) →
      exec (markStage bg (stages.get ⟨j, hj⟩)) ≠ 0 →
      execStages exec bg stages
        = ⟨exec (markStage bg (stages.get ⟨j, hj⟩)),
           (stages.take (j + 1)).map (markStage bg),
           (((stages.take j).map (markStage bg)).map closesOf).flatten⟩ := by
  intro stages
  induction stages with
  | nil => intro j hj; exact absurd hj (by simp)
  | cons sc rest ih =>
    intro j hj hnames hpre hfail
    have hname : (markStage bg sc).commandName ≠ none := by
      rw [markStage_commandName]
      have := hnames sc (List.mem_cons_self sc rest)
      exact Option.isSome_iff_ne_none.mp this
    cases j with
    | zero =>
      have hf0 : exec (markStage bg sc) ≠ 0 := hfail
      show (if (markStage bg sc).commandName = none then _
            else if exec (markStage bg sc) ≠ 0 then _ else _) = _
      rw [if_neg hname, if_pos hf0]
      rfl
    | succ j =>
      have h0 : exec (markStage bg sc) = 0 := hpre 0 (Nat.zero_lt_succ j)
      have hj' : j < rest.length := Nat.succ_lt_succ_iff.mp hj
      have hnames' : ∀ s ∈ rest, s.commandName.isSome := fun s hs =>
        hnames s (List.mem_cons_of_mem _ hs)
      have hpre' : ∀ k (hk : k < j),
          exec (markStage bg (rest.get ⟨k, Nat.lt_trans hk hj'⟩)) = 0 :=
        fun k hk => hpre (k + 1) (Nat.succ_lt_succ hk)
      have hfail' : exec (markStage bg (rest.get ⟨j, hj'⟩)) ≠ 0 := hfail
      show (if (markStage bg sc).commandName = none then _
            else if exec (markStage bg sc) ≠ 0 then _ else _) = _
      rw [if_neg hname, if_neg (by simpa using h0),
        ih j hj' hnames' hpre' hfail']
      simp [List.take_succ_cons, h0]

/-- C2: during chain execution every pipeline runs unconditionally in
declared order regardless of earlier statuses (the chain's executed
trace is the concatenation of every pipeline's trace, and the chain's
status is the last pipeline's status); within one pipeline, the first
stage reporting a non-zero status stops the remaining stages of that
pipeline and its status becomes the pipeline's result. -/
theorem c2_chain_and_pipeline_status (exec : SimpleCommand → Int)
    (chain : CommandChain) (h : chain.commands ≠ []) :
    (executeCommandChain exec chain).status
        = (executeCommand exec (chain.commands.getLast h)).status
    ∧ (executeCommandChain exec chain).executed
        = (chain.commands.map
            (fun c => (executeCommand exec c).executed)).flatten
    ∧ ∀ (cmd : Command) (j : Nat) (hj : j < cmd.simpleCommands.length),
        (∀ sc ∈ cmd.simpleCommands, sc.commandName.isSome) →
        (∀ k (hk : k < j),
          exec (markStage cmd.background
            (cmd.simpleCommands.get ⟨k, Nat.lt_trans hk hj⟩)) = 0) →
        exec (markStage cmd.background
          (cmd.simpleCommands.get ⟨j, hj⟩)) ≠ 0 →
        (executeCommand exec cmd).status
            = exec (markStage cmd.background
                (cmd.simpleCommands.get ⟨j, hj⟩))
        ∧ (executeCommand exec cmd).executed.length = j + 1 := by
  refine ⟨?_, ?_, ?_⟩
  · exact foldl_chainStep_status exec chain.commands h ⟨0, [], []⟩
  · have := foldl_chainStep_executed exec chain.commands ⟨0, [], []⟩
    simpa [executeCommandChain] using this
  · intro cmd j hj hnames hpre hfail
    have hne : cmd.simpleCommands ≠ [] := by
      intro he
      rw [he] at hj
      exact absurd hj (by simp)
    have := execStages_first_fail exec cmd.background cmd.simpleCommands
      j hj hnames hpre hfail
    rw [executeCommand, if_neg hne, this]
    refine ⟨rfl, ?_⟩
    simp only [List.length_map, List.length_take]
    omega

/-- C2 witness: in the chain `a ; f | b` with `f` failing with
status 7, the chain's status is the second (last) pipeline's
status. -/
theorem c2_witness :
    (executeCommandChain execSample chainSample).status
      = (executeCommand execSample
          (chainSample.commands.getLast (by decide))).status :=
  (c2_chain_and_pipeline_status execSample chainSample (by decide)).1

/-! ## C1 — pipeline stage count and pipe wiring -/

theorem isWordToken_spec (t : String) (h : isWordToken t = true) :
    IS_CHAINING_OPERATOR t = false ∧ IS_PIPE t = false ∧
    IS_FILE_OUT_REDIR t = false ∧ IS_FILE_IN_REDIR t = false ∧
    IS_STDERR_REDIR t = false ∧ IGNORE t = false := by
  unfold isWordToken at h
  simp only [Bool.not_eq_true', Bool.or_eq_false_iff] at h
  obtain ⟨⟨⟨⟨⟨h1, h2⟩, h3⟩, h4⟩, h5⟩, h6⟩ := h
  exact ⟨h1, h2, h3, h4, h5, h6⟩

theorem parseAux_word (env : Env) (t : String) (rest : List String)
    (st : OSState) (stages : List SimpleCommand) (sc : SimpleCommand)
    (cmds : List Command) (h : isWordToken t = true) :
    parseAux env (t :: rest) .normal st stages sc cmds
      = parseAux env rest .normal st stages (stepWord env sc t) cmds := by
  obtain ⟨e1, e2, e3, e4, e5, e6⟩ := isWordToken_spec t h
  simp only [parseAux, e1, e2, e3, e4, e5, e6, Bool.false_eq_true, if_false]

theorem parseAux_words (env : Env) :
    ∀ (g rest : List String) (st : OSState) (stages : List SimpleCommand)
      (sc : SimpleCommand) (cmds : List Command),
      (∀ t ∈ g, isWordToken t = true) →
      parseAux env (g ++ rest) .normal st stages sc cmds
        = parseAux env rest .normal st stages
            (g.foldl (stepWord env) sc) cmds := by
  intro g
  induction g with
  | nil => intro rest st stages sc cmds _; rfl
  | cons t g ih =>
    intro rest st stages sc cmds h
    rw [List.cons_append,
      parseAux_word env t (g ++ rest) st stages sc cmds
        (h t (List.mem_cons_self t g)),
      ih rest st stages (stepWord env sc t) cmds
        (fun u hu => h u (List.mem_cons_of_mem _ hu)),
      List.foldl_cons]

theorem parse_groups (env : Env) :
    ∀ (gs : List (List String)),
      (∀ g ∈ gs, g ≠ [] ∧ ∀ t ∈ g, isWordToken t = true) →
      gs ≠ [] →
      ∀ (st : OSState) (stages : List SimpleCommand) (sc : SimpleCommand)
        (cmds : List Command),
        NameInv sc → sc.commandName = none → sc.outputFD = STDOUT_FD →
        ∃ (ss : List SimpleCommand) (st' : OSState),
          parseAux env (joinPipeGroups gs) .normal st stages sc cmds
            = some (cmds ++ [⟨stages ++ ss, false, none⟩], st')
          ∧ ss.length = gs.length
          ∧ (∀ f ∈ ss.head?, f.inputFD = sc.inputFD)
          ∧ (∀ l ∈ ss.getLast?, l.outputFD = STDOUT_FD)
          ∧ List.Chain' (wiredStep st'.pipes) ss
          ∧ st.pipes <+: st'.pipes := by
  intro gs
  induction gs with
  | nil => intro _ hne; exact absurd rfl hne
  | cons g gs ih =>
    intro hvalid _ st stages sc cmds hNI hname hout
    obtain ⟨hg, hgw⟩ := hvalid g (List.mem_cons_self g gs)
    have hnamed : (g.foldl (stepWord env) sc).commandName.isSome :=
      group_named env g hg sc hNI
    obtain ⟨hfi, hfo, hfe⟩ := foldl_stepWord_fds env g sc
    cases gs with
    | nil =>
      refine ⟨[commitStage (g.foldl (stepWord env) sc)], st,
        ?_, rfl, ?_, ?_, List.chain'_singleton _, ⟨[], by simp⟩⟩
      · have hj : joinPipeGroups [g] = g ++ [] := by simp [joinPipeGroups]
        rw [hj, parseAux_words env g [] st stages sc cmds hgw]
        show some (cmds
          ++ [closePipeline stages (g.foldl (stepWord env) sc) none], st)
          = _
        rw [closePipeline]
        simp [hnamed]
      · intro f hf
        simp only [List.head?_cons, Option.mem_def, Option.some.injEq] at hf
        subst hf
        rw [(commitStage_fields _).2.1]
        exact hfi
      · intro l hl
        simp only [List.getLast?_singleton, Option.mem_def,
          Option.some.injEq] at hl
        subst hl
        rw [(commitStage_fields _).2.2.1, hfo]
        exact hout
    | cons g2 gs2 =>
      have hj : joinPipeGroups (g :: g2 :: gs2)
          = g ++ ("|" :: joinPipeGroups (g2 :: gs2)) := rfl
      rw [hj, parseAux_words env g _ st stages sc cmds hgw]
      have e1 : IS_CHAINING_OPERATOR "|" = false := by decide
      have e2 : IS_PIPE "|" = true := by decide
      have hn1 : ¬ ((g.foldl (stepWord env) sc).commandName = none) := by
        intro hcn
        rw [hcn] at hnamed
        simp at hnamed
      have ho1 : ¬ ((g.foldl (stepWord env) sc).outputFD ≠ STDOUT_FD) := by
        rw [hfo, hout]
        exact fun hc => hc rfl
      obtain ⟨ss2, st2, heq, hlen, hhead, hlast, hchain, hpref⟩ :=
        ih (fun g3 hg3 => hvalid g3 (List.mem_cons_of_mem _ hg3))
          (List.cons_ne_nil g2 gs2)
          ⟨st.nextFd + 2, st.pipes ++ [(st.nextFd, st.nextFd + 1)]⟩
          (stages ++ [commitStage
            { g.foldl (stepWord env) sc with outputFD := st.nextFd + 1 }])
          { initSimpleCommand with inputFD := st.nextFd } cmds
          (by rw [NameInv]; simp [initSimpleCommand]) rfl rfl
      refine ⟨commitStage
          { g.foldl (stepWord env) sc with outputFD := st.nextFd + 1 }
          :: ss2, st2, ?_, ?_, ?_, ?_, ?_, ?_⟩
      · simp only [parseAux, e1, e2, Bool.false_eq_true, if_false, if_true]
        rw [if_neg hn1, if_neg ho1]
        show parseAux env (joinPipeGroups (g2 :: gs2)) .normal
          ⟨st.nextFd + 2, st.pipes ++ [(st.nextFd, st.nextFd + 1)]⟩
          (stages ++ [commitStage
            { g.foldl (stepWord env) sc with outputFD := st.nextFd + 1 }])
          { initSimpleCommand with inputFD := st.nextFd } cmds = _
        rw [heq]
        simp [List.append_assoc]
      · simp [hlen]
      · intro f hf
        simp only [List.head?_cons, Option.mem_def, Option.some.injEq] at hf
        subst hf
        rw [(commitStage_fields _).2.1]
        exact hfi
      · intro l hl
        cases ss2 with
        | nil => simp at hlen
        | cons b bs =>
          rw [List.getLast?_cons_cons] at hl
          exact hlast l hl
      · cases ss2 with
        | nil => simp at hlen
        | cons b bs =>
          rw [List.chain'_cons]
          constructor
          · refine ⟨(st.nextFd, st.nextFd + 1), ?_, ?_, ?_⟩
            · exact hpref.subset (by simp)
            · exact (commitStage_fields _).2.2.1
            · have := hhead b (by simp)
              simpa using this
          · exact hchain
      · exact List.IsPrefix.trans ⟨_, rfl⟩ hpref

theorem joinPipeGroups_ne_nil (gs : List (List String)) (hne : gs ≠ [])
    (h : ∀ g ∈ gs, g ≠ []) : joinPipeGroups gs ≠ [] := by
  cases gs with
  | nil => exact absurd rfl hne
  | cons g gs =>
    cases gs with
    | nil => simpa [joinPipeGroups] using h g (List.mem_cons_self g [])
    | cons g2 gs2 =>
      show g ++ "|" :: joinPipeGroups (g2 :: gs2) ≠ []
      simp

theorem joinPipeGroups_pipe_count :
    ∀ (gs : List (List String)),
      (∀ g ∈ gs, ∀ t ∈ g, isWordToken t = true) → gs ≠ [] →
      (joinPipeGroups gs).countP IS_PIPE + 1 = gs.length := by
  intro gs
  induction gs with
  | nil => intro _ hne; exact absurd rfl hne
  | cons g gs ih =>
    intro h _
    have hcg : g.countP IS_PIPE = 0 :=
      List.countP_eq_zero.mpr (fun t ht => by
        simp [(isWordToken_spec t
          (h g (List.mem_cons_self g gs) t ht)).2.1])
    cases gs with
    | nil => simp [joinPipeGroups, hcg]
    | cons g2 gs2 =>
      have hrec := ih (fun g3 hg3 => h g3 (List.mem_cons_of_mem _ hg3))
        (List.cons_ne_nil g2 gs2)
      show (g ++ "|" :: joinPipeGroups (g2 :: gs2)).countP IS_PIPE + 1
        = (g :: g2 :: gs2).length
      rw [List.countP_append, hcg,
        List.countP_cons_of_pos IS_PIPE _ (by decide)]
      simp only [List.length_cons] at hrec ⊢
      omega

/-- C1: every valid single-pipeline token sequence — non-empty word
groups joined by N pipe operators — parses into a chain with exactly
one pipeline of N+1 stages; for every adjacent pair of stages the
left stage's output descriptor is the write end of an allocated OS
pipe whose read end is the right stage's input descriptor; the first
stage's input and the last stage's output keep the interpreter
defaults (no redirection occurs in such a sequence). -/
theorem c1_pipeline_structure (env : Env) (gs : List (List String))
    (h : ValidSinglePipeline gs) :
    ∃ (cmd : Command) (st : OSState),
      parseTokens env (joinPipeGroups gs) = some (⟨[cmd]⟩, st)
      ∧ cmd.simpleCommands.length
          = (joinPipeGroups gs).countP IS_PIPE + 1
      ∧ (∀ i (hi : i + 1 < cmd.simpleCommands.length),
          wiredStep st.pipes
            (cmd.simpleCommands.get ⟨i, Nat.lt_of_succ_lt hi⟩)
            (cmd.simpleCommands.get ⟨i + 1, hi⟩))
      ∧ (∀ f ∈ cmd.simpleCommands.head?, f.inputFD = STDIN_FD)
      ∧ (∀ l ∈ cmd.simpleCommands.getLast?, l.outputFD = STDOUT_FD) := by
  obtain ⟨hne, hval⟩ := h
  obtain ⟨ss, st', heq, hlen, hhead, hlast, hchain, _⟩ :=
    parse_groups env gs hval hne initialOS [] initSimpleCommand []
      initSimpleCommand_NameInv rfl rfl
  have hjne : joinPipeGroups gs ≠ [] :=
    joinPipeGroups_ne_nil gs hne (fun g hg => (hval g hg).1)
  refine ⟨⟨ss, false, none⟩, st', ?_, ?_, ?_, ?_, ?_⟩
  · obtain ⟨t, ts, hts⟩ := List.exists_cons_of_ne_nil hjne
    rw [hts] at heq ⊢
    simp only [List.nil_append] at heq
    simp only [parseTokens, heq]
  · rw [hlen, joinPipeGroups_pipe_count gs
      (fun g hg => (hval g hg).2) hne]
  · intro i hi
    have hi2 : i + 1 < ss.length := hi
    exact List.chain'_iff_get.mp hchain i (by omega)
  · intro f hf
    exact hhead f hf
  · exact hlast

/-- C1 witness: the two-stage pipeline `echo hi | wc -l`. -/
theorem c1_witness :
    ∃ (cmd : Command) (st : OSState),
      parseTokens pureEnv (joinPipeGroups [["echo", "hi"], ["wc", "-l"]])
          = some (⟨[cmd]⟩, st)
      ∧ cmd.simpleCommands.length
          = (joinPipeGroups [["echo", "hi"], ["wc", "-l"]]).countP
              IS_PIPE + 1
      ∧ (∀ i (hi : i + 1 < cmd.simpleCommands.length),
          wiredStep st.pipes
            (cmd.simpleCommands.get ⟨i, Nat.lt_of_succ_lt hi⟩)
            (cmd.simpleCommands.get ⟨i + 1, hi⟩))
      ∧ (∀ f ∈ cmd.simpleCommands.head?, f.inputFD = STDIN_FD)
      ∧ (∀ l ∈ cmd.simpleCommands.getLast?, l.outputFD = STDOUT_FD) :=
  c1_pipeline_structure pureEnv [["echo", "hi"], ["wc", "-l"]]
    ⟨by decide, by decide⟩

end Shell
